import Mathlib

/-!
# libmaple ADC driver: `libmaple/adc.c`

A shallow embedding of the three routines of `adc.c` (`adc_init`,
`adc_disable`, `adc_set_sample_rate`) over an explicit register block with an
ordered trace of the operations performed, followed by theorems on the
register values, the frame and the order of operations of each routine.

Registers are `uint32`; they are natural numbers here and every store is
truncated with `% 2 ^ 32`.  The headers `adc.h` and `rcc.h` are not part of the
sources at hand, so the constants they define (`CR2_EXTSEL_SWSTART`,
`CR2_EXTTRIG`, the positions of the three single-bit flags of `ADC_CR2`, the
arguments handed to the clock module) are parameters, collected in `AdcDefs`.
The two busy-wait loops of `adc_init` are bounded by a number of polls, and an
exhausted bound is reported as `Outcome.spinning` together with the state and
trace reached so far.
-/

namespace Adc

/-! ## Data model -/

/-- Truncation to a `uint32`. -/
def u32 (x : Nat) : Nat := x % 2 ^ 32

/-- The ADC registers `adc.c` names. -/
inductive Reg where
  | CR1
  | CR2
  | SMPR1
  | SMPR2
  | SQR1
  deriving DecidableEq

/-- The single-bit flags of `ADC_CR2` that `adc.c` accesses through
`CR2_ADON_BIT`, `CR2_CAL_BIT` and `CR2_RSTCAL_BIT`. -/
inductive Cr2Bit where
  | ADON
  | CAL
  | RSTCAL
  deriving DecidableEq

/-- One operation as seen from outside the driver: a call into the clock
module, a whole-register store, a store to or a load from a one-bit flag. -/
inductive Event where
  | rcc_set_prescaler (prescaler divider : Nat)
  | rcc_clk_enable (dev : Nat)
  | rcc_reset_dev (dev : Nat)
  | write (r : Reg) (v : Nat)
  | write_bit (b : Cr2Bit) (v : Nat)
  | read_bit (b : Cr2Bit) (v : Bool)
  deriving DecidableEq

/-- The constants of `adc.h` and `rcc.h` used by `adc.c`.  The headers are not
among the sources, so the values are parameters.  The three flag positions are
bit numbers inside the 32-bit register `ADC_CR2`. -/
structure AdcDefs where
  CR2_EXTSEL_SWSTART : Nat
  CR2_EXTTRIG : Nat
  ADON : Fin 32
  CAL : Fin 32
  RSTCAL : Fin 32
  RCC_PRESCALER_ADC : Nat
  RCC_ADCPRE_PCLK_DIV_6 : Nat
  RCC_ADC1 : Nat

/-- Bit number of a flag inside `ADC_CR2`. -/
def AdcDefs.pos (d : AdcDefs) : Cr2Bit → Nat
  | .ADON => d.ADON.val
  | .CAL => d.CAL.val
  | .RSTCAL => d.RSTCAL.val

/-- The values of the STM32F103 register layout libmaple targets
(`ADON` is bit 0, `CAL` bit 2, `RSTCAL` bit 3 of `ADC_CR2`; `EXTSEL = 111`
in bits 17..19 selects SWSTART, `EXTTRIG` is bit 20); the three clock-module
arguments are mere tags here.  Used for concrete instances only. -/
def stm32_defs : AdcDefs where
  CR2_EXTSEL_SWSTART := 0xE <<< 16
  CR2_EXTTRIG := 1 <<< 20
  ADON := 0
  CAL := 2
  RSTCAL := 3
  RCC_PRESCALER_ADC := 0
  RCC_ADCPRE_PCLK_DIV_6 := 2 <<< 14
  RCC_ADC1 := 9

/-- The register block. -/
structure AdcRegs where
  ADC_CR1 : Nat
  ADC_CR2 : Nat
  ADC_SMPR1 : Nat
  ADC_SMPR2 : Nat
  ADC_SQR1 : Nat
  deriving DecidableEq

/-- Register block together with the ordered trace of operations so far. -/
structure Machine where
  regs : AdcRegs
  trace : List Event
  deriving DecidableEq

/-- The simulated hardware: what a peripheral reset does to the register
block, and after how many polls that still read `1` the hardware clears the
reset-calibration flag and the calibrate flag (`none`: never, `some 0`:
immediately). -/
structure Hw where
  reset_dev : AdcRegs → AdcRegs
  rstcal_delay : Option Nat
  cal_delay : Option Nat

/-- Result of a bounded run: the call returned, or the poll bound ran out
before a busy-wait loop read its flag as 0. -/
inductive Outcome where
  | returned (m : Machine)
  | spinning (m : Machine)
  deriving DecidableEq

/-! ## Register access -/

/-- Store to a whole register: `ADC_x = v;`. -/
def reg_write (r : Reg) (v : Nat) (m : Machine) : Machine :=
  { regs :=
      match r with
      | .CR1 => { m.regs with ADC_CR1 := u32 v }
      | .CR2 => { m.regs with ADC_CR2 := u32 v }
      | .SMPR1 => { m.regs with ADC_SMPR1 := u32 v }
      | .SMPR2 => { m.regs with ADC_SMPR2 := u32 v }
      | .SQR1 => { m.regs with ADC_SQR1 := u32 v }
    trace := m.trace ++ [Event.write r (u32 v)] }

/-- Register value with bit `pos` set. -/
def bit_set (x pos : Nat) : Nat := u32 (x ||| (1 <<< pos))

/-- Register value with bit `pos` cleared. -/
def bit_clear (x pos : Nat) : Nat := x &&& (0xFFFFFFFF ^^^ (1 <<< pos))

/-- Modelled from the spec: the macros `CR2_ADON_BIT`, `CR2_CAL_BIT` and
`CR2_RSTCAL_BIT` of the absent `adc.h` are the single-bit enable,
calibrate and reset-calibration flags of the secondary control register; a
store to one of them sets or clears that one bit of `ADC_CR2` (the low bit of
the stored value decides) and leaves the other bits alone. -/
def bit_write (d : AdcDefs) (b : Cr2Bit) (v : Nat) (m : Machine) : Machine :=
  { regs := { m.regs with
      ADC_CR2 := if v % 2 = 1 then bit_set m.regs.ADC_CR2 (d.pos b)
                 else bit_clear m.regs.ADC_CR2 (d.pos b) }
    trace := m.trace ++ [Event.write_bit b v] }

/-! ## Clock module (external collaborator) -/

/-- Modelled from the spec: `rcc_set_prescaler` of the absent clock module
(`SetPrescaler(domain, ratio)`); it touches no ADC register. -/
def rcc_set_prescaler (prescaler divider : Nat) (m : Machine) : Machine :=
  { m with trace := m.trace ++ [Event.rcc_set_prescaler prescaler divider] }

/-- Modelled from the spec: `rcc_clk_enable` of the absent clock module
(`EnableClock(peripheral_id)`); it touches no ADC register. -/
def rcc_clk_enable (dev : Nat) (m : Machine) : Machine :=
  { m with trace := m.trace ++ [Event.rcc_clk_enable dev] }

/-- Modelled from the spec: `rcc_reset_dev` of the absent clock module
(`ResetPeripheral(peripheral_id)`); the hardware decides what the reset does
to the register block. -/
def rcc_reset_dev (hw : Hw) (dev : Nat) (m : Machine) : Machine :=
  { regs := hw.reset_dev m.regs
    trace := m.trace ++ [Event.rcc_reset_dev dev] }

/-! ## `adc_set_sample_rate` -/

/-- Body of the `for` loop of `adc_set_sample_rate`, on the pair
`(adc_smpr1_val, adc_smpr2_val)`. -/
def smpr_loop_body (smp_rate : Nat) (v : Nat × Nat) (i : Nat) : Nat × Nat :=
  let v1 := if i < 8 then u32 (v.1 ||| u32 (smp_rate <<< (i * 3))) else v.1
  (v1, u32 (v.2 ||| u32 (smp_rate <<< (i * 3))))

/-- The loop `for (i = 0; i < 10; i++)` started from `(0, 0)`. -/
def adc_smpr_vals (smp_rate : Nat) : Nat × Nat :=
  (List.range 10).foldl (smpr_loop_body smp_rate) (0, 0)

/-- `void adc_set_sample_rate(adc_smp_rate smp_rate)`. -/
def adc_set_sample_rate (smp_rate : Nat) (m : Machine) : Machine :=
  let v := adc_smpr_vals smp_rate
  reg_write .SMPR2 v.2 (reg_write .SMPR1 v.1 m)

/-! ## `adc_disable` -/

/-- `void adc_disable(void)`: `CR2_ADON_BIT = 0;`. -/
def adc_disable (d : AdcDefs) (m : Machine) : Machine :=
  bit_write d .ADON 0 m

/-! ## `adc_init` -/

/-- What the hardware does to `ADC_CR2` just before a poll of flag `pos`:
once the remaining delay is `some 0` it clears the flag. -/
def hw_tick (pos : Nat) (delay : Option Nat) (cr2 : Nat) : Nat :=
  match delay with
  | some 0 => bit_clear cr2 pos
  | _ => cr2

/-- The busy-wait `while (CR2_x_BIT) ;` with at most `fuel` polls.  Each poll
loads the flag; the loop goes on while the load returns `1`. -/
def wait_clear (d : AdcDefs) (b : Cr2Bit) : Option Nat → Nat → Machine → Outcome
  | _, 0, m => .spinning m
  | delay, fuel + 1, m =>
    let cr2 := hw_tick (d.pos b) delay m.regs.ADC_CR2
    let v := cr2.testBit (d.pos b)
    let m1 : Machine :=
      { regs := { m.regs with ADC_CR2 := cr2 }
        trace := m.trace ++ [Event.read_bit b v] }
    if v then wait_clear d b (delay.map Nat.pred) fuel m1 else .returned m1

/-- `void adc_init(adc_smp_rate smp_rate)`, each busy-wait bounded by `fuel`
polls. -/
def adc_init (d : AdcDefs) (hw : Hw) (fuel : Nat) (smp_rate : Nat) (m : Machine) :
    Outcome :=
  let m := rcc_set_prescaler d.RCC_PRESCALER_ADC d.RCC_ADCPRE_PCLK_DIV_6 m
  let m := rcc_clk_enable d.RCC_ADC1 m
  let m := rcc_reset_dev hw d.RCC_ADC1 m
  let m := reg_write .CR1 0 m
  let m := reg_write .CR2 (d.CR2_EXTSEL_SWSTART ||| d.CR2_EXTTRIG) m
  let m := reg_write .SQR1 0 m
  let m := adc_set_sample_rate smp_rate m
  let m := bit_write d .ADON 1 m
  let m := bit_write d .RSTCAL 1 m
  match wait_clear d .RSTCAL hw.rstcal_delay fuel m with
  | .spinning m => .spinning m
  | .returned m =>
    let m := bit_write d .CAL 1 m
    wait_clear d .CAL hw.cal_delay fuel m

/-! ## Observations used in the statements -/

/-- The 3-bit field of channel slot `i`: bits `[3i, 3i+2]` of a sample-time
register. -/
def field (v i : Nat) : Nat := (v >>> (3 * i)) &&& 7

/-- Whether an event is an access to an ADC register. -/
def Event.isAdcAccess : Event → Bool
  | .write _ _ => true
  | .write_bit _ _ => true
  | .read_bit _ _ => true
  | _ => false

/-- Whether an event is a call into the clock module. -/
def Event.isClockOp : Event → Bool
  | .rcc_set_prescaler _ _ => true
  | .rcc_clk_enable _ => true
  | .rcc_reset_dev _ => true
  | _ => false

/-- Whether an event is a whole-register store to `r`. -/
def Event.isWriteTo (r : Reg) : Event → Bool
  | .write r1 _ => decide (r1 = r)
  | _ => false

/-- A register block and empty trace, for concrete instances. -/
def zero_machine : Machine :=
  { regs := { ADC_CR1 := 0, ADC_CR2 := 0, ADC_SMPR1 := 0, ADC_SMPR2 := 0, ADC_SQR1 := 0 }
    trace := [] }

/-- A simulated hardware whose reset zeroes the block and which clears the two
calibration flags after `n1` and `n2` polls. -/
def sim_hw (n1 n2 : Option Nat) : Hw :=
  { reset_dev := fun _ =>
      { ADC_CR1 := 0, ADC_CR2 := 0, ADC_SMPR1 := 0, ADC_SMPR2 := 0, ADC_SQR1 := 0 }
    rstcal_delay := n1
    cal_delay := n2 }


/-- The machine of an outcome, returned or not. -/
def Outcome.machine : Outcome → Machine
  | .returned m => m
  | .spinning m => m

/-- The part of `adc_init` that precedes the first busy-wait: everything up to
and including `CR2_RSTCAL_BIT = 1;`. -/
def adc_init_setup (d : AdcDefs) (hw : Hw) (smp_rate : Nat) (m : Machine) : Machine :=
  let m := rcc_set_prescaler d.RCC_PRESCALER_ADC d.RCC_ADCPRE_PCLK_DIV_6 m
  let m := rcc_clk_enable d.RCC_ADC1 m
  let m := rcc_reset_dev hw d.RCC_ADC1 m
  let m := reg_write .CR1 0 m
  let m := reg_write .CR2 (d.CR2_EXTSEL_SWSTART ||| d.CR2_EXTTRIG) m
  let m := reg_write .SQR1 0 m
  let m := adc_set_sample_rate smp_rate m
  let m := bit_write d .ADON 1 m
  bit_write d .RSTCAL 1 m

/-- The operations of `adc_init_setup`, in order. -/
def setup_events (d : AdcDefs) (smp_rate : Nat) : List Event :=
  [Event.rcc_set_prescaler d.RCC_PRESCALER_ADC d.RCC_ADCPRE_PCLK_DIV_6,
   Event.rcc_clk_enable d.RCC_ADC1,
   Event.rcc_reset_dev d.RCC_ADC1,
   Event.write .CR1 0,
   Event.write .CR2 (u32 (d.CR2_EXTSEL_SWSTART ||| d.CR2_EXTTRIG)),
   Event.write .SQR1 0,
   Event.write .SMPR1 (u32 (adc_smpr_vals smp_rate).1),
   Event.write .SMPR2 (u32 (adc_smpr_vals smp_rate).2),
   Event.write_bit .ADON 1,
   Event.write_bit .RSTCAL 1]

/-- The value of `ADC_CR2` once `adc_init` has returned: the trigger
selection, then ADON and RSTCAL set, RSTCAL cleared by the hardware, CAL set
and cleared by the hardware. -/
def cr2_after_init (d : AdcDefs) : Nat :=
  bit_clear (bit_set (bit_clear (bit_set (bit_set
    (u32 (d.CR2_EXTSEL_SWSTART ||| d.CR2_EXTTRIG)) d.ADON.val) d.RSTCAL.val) d.RSTCAL.val)
    d.CAL.val) d.CAL.val

/-- Every occurrence of `b` in the list has an occurrence of `a` strictly
before it. -/
def OnlyAfter (a b : Event) (l : List Event) : Prop :=
  ∀ pre post, l = pre ++ b :: post → a ∈ pre

/-! ## Bit-level lemmas -/

theorem testBit_u32 (x j : Nat) : (u32 x).testBit j = (decide (j < 32) && x.testBit j) := by
  unfold u32
  exact Nat.testBit_mod_two_pow x 32 j

theorem testBit_one_shiftLeft (p j : Nat) : (1 <<< p).testBit j = decide (p = j) := by
  rw [Nat.one_shiftLeft, Nat.testBit_two_pow]

theorem testBit_bit_set (x p j : Nat) :
    (bit_set x p).testBit j = (decide (j < 32) && (x.testBit j || decide (p = j))) := by
  unfold bit_set
  rw [testBit_u32, Nat.testBit_or, testBit_one_shiftLeft]

theorem testBit_bit_clear (x p j : Nat) (hp : p < 32) :
    (bit_clear x p).testBit j = (x.testBit j && (decide (j < 32) && !decide (p = j))) := by
  unfold bit_clear
  have h : (0xFFFFFFFF : Nat) = 2 ^ 32 - 1 := by norm_num
  rw [Nat.testBit_and, Nat.testBit_xor, testBit_one_shiftLeft, h, Nat.testBit_two_pow_sub_one]
  by_cases h1 : j < 32 <;> by_cases h2 : p = j <;> simp [h1, h2]
  omega

theorem bit_clear_idem (x p : Nat) : bit_clear (bit_clear x p) p = bit_clear x p := by
  unfold bit_clear
  rw [Nat.land_assoc, Nat.and_self]

theorem field_le (v i : Nat) : field v i ≤ 7 := by
  unfold field
  exact Nat.and_le_right

theorem adc_set_sample_rate_regs (r : Nat) (m : Machine) :
    (adc_set_sample_rate r m).regs =
      { m.regs with ADC_SMPR1 := u32 (adc_smpr_vals r).1, ADC_SMPR2 := u32 (adc_smpr_vals r).2 } :=
  rfl

theorem adc_set_sample_rate_trace (r : Nat) (m : Machine) :
    (adc_set_sample_rate r m).trace =
      m.trace ++ [Event.write .SMPR1 (u32 (adc_smpr_vals r).1),
                  Event.write .SMPR2 (u32 (adc_smpr_vals r).2)] := by
  simp [adc_set_sample_rate, reg_write]

theorem smpr_fields_of_le : ∀ r, r ≤ 7 →
    (∀ i, i < 10 → field (u32 (adc_smpr_vals r).2) i = r) ∧
    (∀ i, i < 8 → field (u32 (adc_smpr_vals r).1) i = r) := by
  decide

theorem smpr_contrib_bits : ∀ r, r ≤ 7 → ∀ i, i < 10 → ∀ j, j < 32 →
    (u32 (r <<< (i * 3))).testBit j = true → 3 * i ≤ j ∧ j ≤ 3 * i + 2 := by
  decide

theorem smpr_field_bits : ∀ r, r ≤ 7 →
    (∀ i, i < 10 → ∀ k, k < 3 → (u32 (adc_smpr_vals r).2).testBit (3 * i + k) = r.testBit k) ∧
    (∀ i, i < 8 → ∀ k, k < 3 → (u32 (adc_smpr_vals r).1).testBit (3 * i + k) = r.testBit k) := by
  decide

theorem smpr_loop_body_lt (r : Nat) (v : Nat × Nat) (i : Nat)
    (h : v.1 < 2 ^ 32 ∧ v.2 < 2 ^ 32) :
    (smpr_loop_body r v i).1 < 2 ^ 32 ∧ (smpr_loop_body r v i).2 < 2 ^ 32 := by
  unfold smpr_loop_body u32
  constructor
  · dsimp only
    split
    · exact Nat.mod_lt _ (by decide)
    · exact h.1
  · exact Nat.mod_lt _ (by decide)

theorem foldl_smpr_lt (r : Nat) : ∀ (l : List Nat) (v : Nat × Nat),
    v.1 < 2 ^ 32 ∧ v.2 < 2 ^ 32 →
    (l.foldl (smpr_loop_body r) v).1 < 2 ^ 32 ∧ (l.foldl (smpr_loop_body r) v).2 < 2 ^ 32 := by
  intro l
  induction l with
  | nil => intro v h; exact h
  | cons i l ih => intro v h; exact ih _ (smpr_loop_body_lt r v i h)

theorem adc_smpr_vals_lt (r : Nat) :
    (adc_smpr_vals r).1 < 2 ^ 32 ∧ (adc_smpr_vals r).2 < 2 ^ 32 :=
  foldl_smpr_lt r _ _ ⟨by decide, by decide⟩

theorem smpr_high_bits : ∀ r, r ≤ 7 →
    u32 (adc_smpr_vals r).2 < 2 ^ 30 ∧ u32 (adc_smpr_vals r).1 < 2 ^ 24 := by
  decide

/-! ## The busy-wait loop -/

theorem pos_lt (d : AdcDefs) (b : Cr2Bit) : d.pos b < 32 := by
  cases b <;> simp [AdcDefs.pos]

theorem testBit_bit_set_self (x p : Nat) (hp : p < 32) : (bit_set x p).testBit p = true := by
  rw [testBit_bit_set]
  simp [hp]

theorem testBit_bit_clear_self (x p : Nat) (hp : p < 32) : (bit_clear x p).testBit p = false := by
  rw [testBit_bit_clear _ _ _ hp]
  simp

/-- A flag that is set and that the hardware clears after `n` polls: with more
than `n` polls allowed the loop ends after `n + 1` loads, the last one reading
0, and only that flag has changed. -/
theorem wait_clear_some (d : AdcDefs) (b : Cr2Bit) :
    ∀ (n fuel : Nat) (m : Machine), n < fuel → m.regs.ADC_CR2.testBit (d.pos b) = true →
      wait_clear d b (some n) fuel m = .returned
        { regs := { m.regs with ADC_CR2 := bit_clear m.regs.ADC_CR2 (d.pos b) }
          trace := m.trace ++ (List.replicate n (Event.read_bit b true) ++
            [Event.read_bit b false]) } := by
  intro n
  induction n with
  | zero =>
    intro fuel m hf _
    obtain ⟨f, rfl⟩ : ∃ f, fuel = f + 1 := ⟨fuel - 1, by omega⟩
    simp [wait_clear, hw_tick, testBit_bit_clear_self _ _ (pos_lt d b)]
  | succ n ih =>
    intro fuel m hf hset
    obtain ⟨f, rfl⟩ : ∃ f, fuel = f + 1 := ⟨fuel - 1, by omega⟩
    have hf1 : n < f := by omega
    simp only [wait_clear, hw_tick, hset, if_true, Option.map_some', Nat.pred_succ]
    refine (ih f _ hf1 ?_).trans ?_
    · exact hset
    · simp [List.replicate_succ]

/-- A flag that is set and that the hardware does not clear within the
allowed polls: every load reads 1 and the bound runs out inside the loop, the
registers untouched. -/
theorem wait_clear_spin (d : AdcDefs) (b : Cr2Bit) :
    ∀ (fuel : Nat) (delay : Option Nat) (m : Machine),
      (∀ n, delay = some n → fuel ≤ n) → m.regs.ADC_CR2.testBit (d.pos b) = true →
      wait_clear d b delay fuel m = .spinning
        { regs := m.regs
          trace := m.trace ++ List.replicate fuel (Event.read_bit b true) } := by
  intro fuel
  induction fuel with
  | zero =>
    intro delay m _ _
    simp [wait_clear]
  | succ f ih =>
    intro delay m hd hset
    have htick : hw_tick (d.pos b) delay m.regs.ADC_CR2 = m.regs.ADC_CR2 := by
      cases delay with
      | none => rfl
      | some n =>
        have := hd n rfl
        obtain ⟨k, rfl⟩ : ∃ k, n = k + 1 := ⟨n - 1, by omega⟩
        rfl
    have hd1 : ∀ n, delay.map Nat.pred = some n → f ≤ n := by
      intro n hn
      cases delay with
      | none => simp at hn
      | some k =>
        have := hd k rfl
        simp at hn
        omega
    simp only [wait_clear, htick, hset, if_true]
    refine (ih _ _ hd1 ?_).trans ?_
    · exact hset
    · simp [List.replicate_succ]

/-- Whatever the hardware does, the loads of a busy-wait read 1 until the
loop ends, and the loop ends only on a load that reads 0. -/
theorem wait_clear_trace (d : AdcDefs) (b : Cr2Bit) :
    ∀ (fuel : Nat) (delay : Option Nat) (m : Machine),
      (∀ m1, wait_clear d b delay fuel m = .returned m1 →
        ∃ n, m1.trace = m.trace ++ (List.replicate n (Event.read_bit b true) ++
          [Event.read_bit b false])) ∧
      (∀ m1, wait_clear d b delay fuel m = .spinning m1 →
        m1.trace = m.trace ++ List.replicate fuel (Event.read_bit b true)) := by
  intro fuel
  induction fuel with
  | zero =>
    intro delay m
    simp [wait_clear]
  | succ f ih =>
    intro delay m
    simp only [wait_clear]
    by_cases hv : (hw_tick (d.pos b) delay m.regs.ADC_CR2).testBit (d.pos b) = true
    · simp only [hv, if_true]
      obtain ⟨h1, h2⟩ := ih (delay.map Nat.pred)
        { regs := { m.regs with ADC_CR2 := hw_tick (d.pos b) delay m.regs.ADC_CR2 }
          trace := m.trace ++ [Event.read_bit b true] }
      constructor
      · intro m1 hm1
        obtain ⟨n, hn⟩ := h1 m1 hm1
        exact ⟨n + 1, by simp [hn, List.replicate_succ]⟩
      · intro m1 hm1
        simp [h2 m1 hm1, List.replicate_succ]
    · simp only [hv]
      constructor
      · intro m1 hm1
        simp only [Bool.false_eq_true, if_false, Outcome.returned.injEq] at hm1
        subst hm1
        refine ⟨0, ?_⟩
        simp at hv
        simp [hv]
      · intro m1 hm1
        simp at hm1

/-! ## `adc_init` -/

theorem adc_init_eq (d : AdcDefs) (hw : Hw) (fuel r : Nat) (m : Machine) :
    adc_init d hw fuel r m =
      match wait_clear d .RSTCAL hw.rstcal_delay fuel (adc_init_setup d hw r m) with
      | .spinning m1 => .spinning m1
      | .returned m1 => wait_clear d .CAL hw.cal_delay fuel (bit_write d .CAL 1 m1) :=
  rfl

theorem adc_init_setup_trace (d : AdcDefs) (hw : Hw) (r : Nat) (m : Machine) :
    (adc_init_setup d hw r m).trace = m.trace ++ setup_events d r := by
  simp [adc_init_setup, setup_events, bit_write, adc_set_sample_rate, reg_write,
    rcc_reset_dev, rcc_clk_enable, rcc_set_prescaler, u32]

theorem adc_init_setup_regs (d : AdcDefs) (hw : Hw) (r : Nat) (m : Machine) :
    (adc_init_setup d hw r m).regs =
      { ADC_CR1 := 0
        ADC_CR2 := bit_set (bit_set (u32 (d.CR2_EXTSEL_SWSTART ||| d.CR2_EXTTRIG)) d.ADON.val)
          d.RSTCAL.val
        ADC_SMPR1 := u32 (adc_smpr_vals r).1
        ADC_SMPR2 := u32 (adc_smpr_vals r).2
        ADC_SQR1 := 0 } :=
  rfl

/-- With both flags cleared by the hardware within the allowed polls,
`adc_init` returns, and the final registers and the trace are these. -/
theorem adc_init_returned (d : AdcDefs) (hw : Hw) (fuel r n1 n2 : Nat) (m : Machine)
    (h1 : hw.rstcal_delay = some n1) (h2 : hw.cal_delay = some n2)
    (hf1 : n1 < fuel) (hf2 : n2 < fuel) :
    adc_init d hw fuel r m = .returned
      { regs :=
          { ADC_CR1 := 0
            ADC_CR2 := cr2_after_init d
            ADC_SMPR1 := u32 (adc_smpr_vals r).1
            ADC_SMPR2 := u32 (adc_smpr_vals r).2
            ADC_SQR1 := 0 }
        trace := m.trace ++ (setup_events d r ++
          (List.replicate n1 (Event.read_bit .RSTCAL true) ++
            (Event.read_bit .RSTCAL false :: Event.write_bit .CAL 1 ::
              (List.replicate n2 (Event.read_bit .CAL true) ++
                [Event.read_bit .CAL false])))) } := by
  have hset1 : (adc_init_setup d hw r m).regs.ADC_CR2.testBit (d.pos .RSTCAL) = true := by
    rw [adc_init_setup_regs]
    exact testBit_bit_set_self _ _ (pos_lt d .RSTCAL)
  rw [adc_init_eq, h1, h2, wait_clear_some d .RSTCAL n1 fuel _ hf1 hset1]
  simp only
  rw [wait_clear_some d .CAL n2 fuel _ hf2 (testBit_bit_set_self _ _ (pos_lt d .CAL))]
  simp [adc_init_setup_trace, adc_init_setup_regs, bit_write, cr2_after_init, AdcDefs.pos]

/-- Bits of `ADC_CR2` after `adc_init`, the three flag positions being
pairwise usable: ADON differs from RSTCAL and from CAL. -/
theorem testBit_cr2_after_init (d : AdcDefs) (hr : d.ADON ≠ d.RSTCAL) (hc : d.ADON ≠ d.CAL)
    (j : Nat) :
    (cr2_after_init d).testBit j =
      if j = d.ADON.val then true
      else if j = d.RSTCAL.val ∨ j = d.CAL.val then false
      else (u32 (d.CR2_EXTSEL_SWSTART ||| d.CR2_EXTTRIG)).testBit j := by
  have hr1 : d.ADON.val ≠ d.RSTCAL.val := fun h => hr (Fin.ext h)
  have hc1 : d.ADON.val ≠ d.CAL.val := fun h => hc (Fin.ext h)
  unfold cr2_after_init
  rw [testBit_bit_clear _ _ _ d.CAL.isLt, testBit_bit_set, testBit_bit_clear _ _ _ d.RSTCAL.isLt,
    testBit_bit_set, testBit_bit_set, testBit_u32]
  by_cases h32 : j < 32 <;> by_cases ha : j = d.ADON.val <;>
    by_cases hrs : j = d.RSTCAL.val <;> by_cases hca : j = d.CAL.val <;>
    simp [h32, ha, hrs, hca, hr1, hc1, Ne.symm hr1, Ne.symm hc1, eq_comm]

theorem adc_disable_clears (d : AdcDefs) (m : Machine) :
    (adc_disable d m).regs.ADC_CR2.testBit d.ADON.val = false :=
  testBit_bit_clear_self _ _ d.ADON.isLt

/-! ## Order of operations -/

theorem onlyAfter_of_not_mem (a b : Event) (l : List Event) (h : b ∉ l) : OnlyAfter a b l := by
  intro pre post hl
  exact absurd (by simp [hl]) h

theorem mem_pre_of_split (a b : Event) :
    ∀ (pre A B post : List Event), a ∈ A → b ∉ A → A ++ B = pre ++ b :: post → a ∈ pre := by
  intro pre
  induction pre with
  | nil =>
    intro A B post ha hb h
    cases A with
    | nil => simp at ha
    | cons y A1 =>
      simp only [List.cons_append, List.nil_append, List.cons.injEq] at h
      exact absurd (by simp [h.1]) hb
  | cons p pre1 ih =>
    intro A B post ha hb h
    cases A with
    | nil => simp at ha
    | cons y A1 =>
      simp only [List.cons_append, List.cons.injEq] at h
      rcases List.mem_cons.mp ha with hay | haA
      · simp [hay, h.1]
      · have hb1 : b ∉ A1 := fun hmem => hb (List.mem_cons_of_mem _ hmem)
        exact List.mem_cons_of_mem _ (ih A1 B post haA hb1 h.2)

theorem onlyAfter_of_split (a b : Event) (A B : List Event) (ha : a ∈ A) (hb : b ∉ A) :
    OnlyAfter a b (A ++ B) :=
  fun pre post h => mem_pre_of_split a b pre A B post ha hb h

/-- Shape of the trace of `adc_init`, whatever the hardware does: the setup,
then loads of RSTCAL reading 1; either the run is still in the first
busy-wait, or a load of RSTCAL reading 0 follows, then the store to CAL, then
loads of CAL reading 1 and, exactly when the call returns, a last load of CAL
reading 0. -/
theorem adc_init_trace (d : AdcDefs) (hw : Hw) (fuel r : Nat) (m : Machine) :
    ∃ n1,
      ((adc_init d hw fuel r m).machine.trace =
          m.trace ++ (setup_events d r ++ List.replicate n1 (Event.read_bit .RSTCAL true)) ∧
        ∀ m1, adc_init d hw fuel r m ≠ .returned m1) ∨
      (∃ n2 last, (adc_init d hw fuel r m).machine.trace =
          m.trace ++ ((setup_events d r ++ (List.replicate n1 (Event.read_bit .RSTCAL true) ++
            [Event.read_bit .RSTCAL false])) ++ (Event.write_bit .CAL 1 ::
              (List.replicate n2 (Event.read_bit .CAL true) ++ last))) ∧
        (last = [] ∨ last = [Event.read_bit .CAL false]) ∧
        ∀ m1, adc_init d hw fuel r m = .returned m1 → last = [Event.read_bit .CAL false]) := by
  rw [adc_init_eq]
  obtain ⟨hret1, hspin1⟩ := wait_clear_trace d .RSTCAL fuel hw.rstcal_delay (adc_init_setup d hw r m)
  cases hw1 : wait_clear d .RSTCAL hw.rstcal_delay fuel (adc_init_setup d hw r m) with
  | spinning m1 =>
    refine ⟨fuel, Or.inl ⟨?_, ?_⟩⟩
    · simp [Outcome.machine, hspin1 m1 hw1, adc_init_setup_trace]
    · intro m2 h2
      cases h2
  | returned m1 =>
    obtain ⟨n1, hn1⟩ := hret1 m1 hw1
    refine ⟨n1, Or.inr ?_⟩
    simp only
    obtain ⟨hret2, hspin2⟩ := wait_clear_trace d .CAL fuel hw.cal_delay (bit_write d .CAL 1 m1)
    have hbw : (bit_write d .CAL 1 m1).trace = m1.trace ++ [Event.write_bit .CAL 1] := rfl
    cases hw2 : wait_clear d .CAL hw.cal_delay fuel (bit_write d .CAL 1 m1) with
    | spinning m2 =>
      refine ⟨fuel, [], ?_, Or.inl rfl, ?_⟩
      · simp [Outcome.machine, hspin2 m2 hw2, hbw, hn1, adc_init_setup_trace]
      · intro m3 h3
        cases h3
    | returned m2 =>
      obtain ⟨n2, hn2⟩ := hret2 m2 hw2
      refine ⟨n2, [Event.read_bit .CAL false], ?_, Or.inr rfl, fun _ _ => rfl⟩
      simp [Outcome.machine, hn2, hbw, hn1, adc_init_setup_trace]

/-! ## Theorems -/

/-- C1: for a sample rate `r` with `0 ≤ r ≤ 7`, after `adc_set_sample_rate r`
every 3-bit field of `ADC_SMPR2` at bits `[3i, 3i+2]`, `i = 0..9`, equals `r`
and every 3-bit field of `ADC_SMPR1` at bits `[3i, 3i+2]`, `i = 0..7`, equals
`r`; the value or-ed in for slot `i` has bits only inside `[3i, 3i+2]`, so no
field overflows into its neighbour, and for `r = 7` the contribution of slot 9
is exactly bits 27, 28 and 29. -/
theorem set_sample_rate_fields (r : Nat) (hr : r ≤ 7) (m : Machine) :
    (∀ i, i < 10 → field (adc_set_sample_rate r m).regs.ADC_SMPR2 i = r) ∧
    (∀ i, i < 8 → field (adc_set_sample_rate r m).regs.ADC_SMPR1 i = r) ∧
    (∀ i j, i < 10 → (u32 (r <<< (i * 3))).testBit j = true → 3 * i ≤ j ∧ j ≤ 3 * i + 2) ∧
    (∀ i k, i < 10 → k < 3 →
      (adc_set_sample_rate r m).regs.ADC_SMPR2.testBit (3 * i + k) = r.testBit k) ∧
    (∀ i k, i < 8 → k < 3 →
      (adc_set_sample_rate r m).regs.ADC_SMPR1.testBit (3 * i + k) = r.testBit k) ∧
    u32 (7 <<< (9 * 3)) = 2 ^ 27 + 2 ^ 28 + 2 ^ 29 := by
  rw [adc_set_sample_rate_regs]
  refine ⟨(smpr_fields_of_le r hr).1, (smpr_fields_of_le r hr).2, ?_,
    fun i k hi hk => (smpr_field_bits r hr).1 i hi k hk,
    fun i k hi hk => (smpr_field_bits r hr).2 i hi k hk, by decide⟩
  intro i j hi hj
  have hj32 : j < 32 := by
    simp only [testBit_u32, Bool.and_eq_true, decide_eq_true_eq] at hj
    exact hj.1
  exact smpr_contrib_bits r hr i hi j hj32 hj

/-- The field property at the largest rate, `r = 7`, from an all-zero block. -/
theorem set_sample_rate_fields_witness :
    (7 ≤ 7) ∧
    ((∀ i, i < 10 → field (adc_set_sample_rate 7 zero_machine).regs.ADC_SMPR2 i = 7) ∧
    (∀ i, i < 8 → field (adc_set_sample_rate 7 zero_machine).regs.ADC_SMPR1 i = 7) ∧
    (∀ i j, i < 10 → (u32 (7 <<< (i * 3))).testBit j = true → 3 * i ≤ j ∧ j ≤ 3 * i + 2) ∧
    (∀ i k, i < 10 → k < 3 →
      (adc_set_sample_rate 7 zero_machine).regs.ADC_SMPR2.testBit (3 * i + k) = Nat.testBit 7 k) ∧
    (∀ i k, i < 8 → k < 3 →
      (adc_set_sample_rate 7 zero_machine).regs.ADC_SMPR1.testBit (3 * i + k) = Nat.testBit 7 k) ∧
    u32 (7 <<< (9 * 3)) = 2 ^ 27 + 2 ^ 28 + 2 ^ 29) :=
  ⟨by decide, set_sample_rate_fields 7 (by decide) zero_machine⟩

/-- C2: for a sample rate `r` with `0 ≤ r ≤ 7` the values written have no bit
set outside the channel fields: bits 30 and above of `ADC_SMPR2` and bits 24
and above of `ADC_SMPR1` are 0; `r = 7` gives `0x3FFFFFFF` and `0x00FFFFFF`,
`r = 0` gives 0 in both. -/
theorem set_sample_rate_no_stray_bits (r : Nat) (hr : r ≤ 7) (m : Machine) :
    (∀ j, 30 ≤ j → (adc_set_sample_rate r m).regs.ADC_SMPR2.testBit j = false) ∧
    (∀ j, 24 ≤ j → (adc_set_sample_rate r m).regs.ADC_SMPR1.testBit j = false) ∧
    (r = 7 → (adc_set_sample_rate r m).regs.ADC_SMPR2 = 0x3FFFFFFF ∧
      (adc_set_sample_rate r m).regs.ADC_SMPR1 = 0x00FFFFFF) ∧
    (r = 0 → (adc_set_sample_rate r m).regs.ADC_SMPR2 = 0 ∧
      (adc_set_sample_rate r m).regs.ADC_SMPR1 = 0) := by
  rw [adc_set_sample_rate_regs]
  obtain ⟨h2, h1⟩ := smpr_high_bits r hr
  refine ⟨?_, ?_, ?_, ?_⟩
  · intro j hj
    exact Nat.testBit_lt_two_pow (lt_of_lt_of_le h2 (Nat.pow_le_pow_right (by decide) hj))
  · intro j hj
    exact Nat.testBit_lt_two_pow (lt_of_lt_of_le h1 (Nat.pow_le_pow_right (by decide) hj))
  · rintro rfl
    show u32 (adc_smpr_vals 7).2 = 0x3FFFFFFF ∧ u32 (adc_smpr_vals 7).1 = 0x00FFFFFF
    decide
  · rintro rfl
    show u32 (adc_smpr_vals 0).2 = 0 ∧ u32 (adc_smpr_vals 0).1 = 0
    decide

/-- The values written at `r = 7` and their top bits. -/
theorem set_sample_rate_no_stray_bits_witness :
    (7 ≤ 7) ∧
    (adc_set_sample_rate 7 zero_machine).regs.ADC_SMPR2 = 0x3FFFFFFF ∧
    (adc_set_sample_rate 7 zero_machine).regs.ADC_SMPR1 = 0x00FFFFFF ∧
    (adc_set_sample_rate 7 zero_machine).regs.ADC_SMPR2.testBit 30 = false ∧
    (adc_set_sample_rate 7 zero_machine).regs.ADC_SMPR1.testBit 24 = false :=
  have h := set_sample_rate_no_stray_bits 7 (by decide) zero_machine
  ⟨by decide, (h.2.2.1 rfl).1, (h.2.2.1 rfl).2, h.1 30 (by decide), h.2.1 24 (by decide)⟩

/-- C3: from every register state and for every sample-rate value, one call of
`adc_set_sample_rate` performs exactly two operations, one store to
`ADC_SMPR1` followed by one store to `ADC_SMPR2`; it stores to no other
register, and `ADC_CR1`, `ADC_CR2` (hence the ADON flag, wherever it sits) and
`ADC_SQR1` are unchanged. -/
theorem set_sample_rate_frame (r : Nat) (m : Machine) :
    (∃ v1 v2, (adc_set_sample_rate r m).trace =
        m.trace ++ [Event.write .SMPR1 v1, Event.write .SMPR2 v2] ∧
      (adc_set_sample_rate r m).regs.ADC_SMPR1 = v1 ∧
      (adc_set_sample_rate r m).regs.ADC_SMPR2 = v2) ∧
    (((adc_set_sample_rate r m).trace.drop m.trace.length).countP
        (Event.isWriteTo .SMPR1) = 1) ∧
    (((adc_set_sample_rate r m).trace.drop m.trace.length).countP
        (Event.isWriteTo .SMPR2) = 1) ∧
    (((adc_set_sample_rate r m).trace.drop m.trace.length).length = 2) ∧
    (adc_set_sample_rate r m).regs.ADC_CR1 = m.regs.ADC_CR1 ∧
    (adc_set_sample_rate r m).regs.ADC_CR2 = m.regs.ADC_CR2 ∧
    (∀ d : AdcDefs, (adc_set_sample_rate r m).regs.ADC_CR2.testBit d.ADON =
      m.regs.ADC_CR2.testBit d.ADON) ∧
    (adc_set_sample_rate r m).regs.ADC_SQR1 = m.regs.ADC_SQR1 := by
  rw [adc_set_sample_rate_trace, adc_set_sample_rate_regs]
  refine ⟨⟨_, _, rfl, rfl, rfl⟩, ?_, ?_, ?_, rfl, rfl, fun _ => rfl, rfl⟩
  · simp [Event.isWriteTo]
  · simp [Event.isWriteTo]
  · simp

/-- C4: `adc_disable` is idempotent on the register state. -/
theorem adc_disable_idempotent (d : AdcDefs) (m : Machine) :
    (adc_disable d (adc_disable d m)).regs = (adc_disable d m).regs := by
  simp [adc_disable, bit_write, bit_clear_idem]

/-- C5: from every register state `adc_disable` leaves the ADON flag of
`ADC_CR2` clear and every other bit of the 32-bit register `ADC_CR2` as it
was; `ADC_CR1`, `ADC_SQR1`, `ADC_SMPR1` and `ADC_SMPR2` keep their values; the
only operation performed is the store of 0 to the ADON flag, so no
clock-module operation is issued. -/
theorem adc_disable_frame (d : AdcDefs) (m : Machine) :
    (adc_disable d m).regs.ADC_CR2.testBit d.ADON = false ∧
    (∀ j, j < 32 → j ≠ d.ADON.val →
      (adc_disable d m).regs.ADC_CR2.testBit j = m.regs.ADC_CR2.testBit j) ∧
    (adc_disable d m).regs.ADC_CR1 = m.regs.ADC_CR1 ∧
    (adc_disable d m).regs.ADC_SQR1 = m.regs.ADC_SQR1 ∧
    (adc_disable d m).regs.ADC_SMPR1 = m.regs.ADC_SMPR1 ∧
    (adc_disable d m).regs.ADC_SMPR2 = m.regs.ADC_SMPR2 ∧
    (adc_disable d m).trace = m.trace ++ [Event.write_bit .ADON 0] ∧
    (∀ e, e ∈ (adc_disable d m).trace.drop m.trace.length → e.isClockOp = false) := by
  have hcr2 : (adc_disable d m).regs.ADC_CR2 = bit_clear m.regs.ADC_CR2 d.ADON.val := rfl
  have htr : (adc_disable d m).trace = m.trace ++ [Event.write_bit .ADON 0] := rfl
  rw [hcr2, htr]
  refine ⟨?_, ?_, rfl, rfl, rfl, rfl, rfl, ?_⟩
  · rw [testBit_bit_clear _ _ _ d.ADON.isLt]
    simp
  · intro j hj hne
    rw [testBit_bit_clear _ _ _ d.ADON.isLt]
    simp [hj, Ne.symm hne]
  · intro e he
    simp only [List.drop_left, List.mem_singleton] at he
    subst he
    rfl

/-- C10: `adc_set_sample_rate` neither masks nor checks its argument.  With
`r = 8`, whose low three bits are 0, field 0 of `ADC_SMPR2` is 0 but field 1
is 1: bit 3 of the argument lands in the neighbouring channel field.  For any
argument, every field of `ADC_SMPR2` (of `ADC_SMPR1`) equals the argument
exactly when the argument is at most 7. -/
theorem set_sample_rate_unmasked (m : Machine) :
    (8 &&& 7 = 0 ∧
      field (adc_set_sample_rate 8 m).regs.ADC_SMPR2 0 = 0 ∧
      field (adc_set_sample_rate 8 m).regs.ADC_SMPR2 1 = 1) ∧
    (∃ r i, 7 < r ∧ i < 10 ∧ field (adc_set_sample_rate r m).regs.ADC_SMPR2 i ≠ r &&& 7) ∧
    (∀ r, (∀ i, i < 10 → field (adc_set_sample_rate r m).regs.ADC_SMPR2 i = r) ↔ r ≤ 7) ∧
    (∀ r, (∀ i, i < 8 → field (adc_set_sample_rate r m).regs.ADC_SMPR1 i = r) ↔ r ≤ 7) := by
  have h8 : field (u32 (adc_smpr_vals 8).2) 0 = 0 ∧ field (u32 (adc_smpr_vals 8).2) 1 = 1 := by
    decide
  refine ⟨⟨by decide, h8.1, h8.2⟩, ⟨8, 1, by decide, by decide, ?_⟩, ?_, ?_⟩
  · show field (u32 (adc_smpr_vals 8).2) 1 ≠ 8 &&& 7
    decide
  · intro r
    constructor
    · intro h
      have h0 := h 0 (by decide)
      rw [← h0]
      exact field_le _ _
    · intro hr
      exact (smpr_fields_of_le r hr).1
  · intro r
    constructor
    · intro h
      have h0 := h 0 (by decide)
      rw [← h0]
      exact field_le _ _
    · intro hr
      exact (smpr_fields_of_le r hr).2

/-- C6: for every sample rate, every starting register contents and every
simulated hardware that clears the reset-calibration flag after `n1` polls and
then the calibrate flag after `n2` polls (0 included), `adc_init` returns once
more than `n1` and `n2` polls are allowed, and in the final state
`ADC_CR1 = 0`, `ADC_SQR1 = 0`, `ADC_CR2` is `CR2_EXTSEL_SWSTART | CR2_EXTTRIG`
with the ADON flag set and the RSTCAL and CAL flags clear (bit by bit; as a
number it is `CR2_EXTSEL_SWSTART | CR2_EXTTRIG | 1 << ADON` when the trigger
constants fit 32 bits and contain neither calibration flag), and
`ADC_SMPR1`, `ADC_SMPR2` hold the packing of the requested rate.  ADON is
taken to be a flag of its own, different from RSTCAL and CAL. -/
theorem adc_init_final_state (d : AdcDefs) (hw : Hw) (fuel r n1 n2 : Nat) (m : Machine)
    (h1 : hw.rstcal_delay = some n1) (h2 : hw.cal_delay = some n2)
    (hf1 : n1 < fuel) (hf2 : n2 < fuel)
    (hr : d.ADON ≠ d.RSTCAL) (hc : d.ADON ≠ d.CAL) :
    ∃ m1, adc_init d hw fuel r m = .returned m1 ∧
      m1.regs.ADC_CR1 = 0 ∧
      m1.regs.ADC_SQR1 = 0 ∧
      m1.regs.ADC_CR2.testBit d.ADON.val = true ∧
      m1.regs.ADC_CR2.testBit d.RSTCAL.val = false ∧
      m1.regs.ADC_CR2.testBit d.CAL.val = false ∧
      (∀ j, j ≠ d.ADON.val → j ≠ d.RSTCAL.val → j ≠ d.CAL.val →
        m1.regs.ADC_CR2.testBit j =
          (u32 (d.CR2_EXTSEL_SWSTART ||| d.CR2_EXTTRIG)).testBit j) ∧
      (d.CR2_EXTSEL_SWSTART ||| d.CR2_EXTTRIG < 2 ^ 32 →
        (d.CR2_EXTSEL_SWSTART ||| d.CR2_EXTTRIG).testBit d.RSTCAL.val = false →
        (d.CR2_EXTSEL_SWSTART ||| d.CR2_EXTTRIG).testBit d.CAL.val = false →
        m1.regs.ADC_CR2 = d.CR2_EXTSEL_SWSTART ||| d.CR2_EXTTRIG ||| 1 <<< d.ADON.val) ∧
      m1.regs.ADC_SMPR1 = (adc_smpr_vals r).1 ∧
      m1.regs.ADC_SMPR2 = (adc_smpr_vals r).2 ∧
      m1.regs.ADC_SMPR1 = (adc_set_sample_rate r m).regs.ADC_SMPR1 ∧
      m1.regs.ADC_SMPR2 = (adc_set_sample_rate r m).regs.ADC_SMPR2 ∧
      (r ≤ 7 → (∀ i, i < 10 → field m1.regs.ADC_SMPR2 i = r) ∧
        (∀ i, i < 8 → field m1.regs.ADC_SMPR1 i = r)) := by
  refine ⟨_, adc_init_returned d hw fuel r n1 n2 m h1 h2 hf1 hf2, rfl, rfl, ?_, ?_, ?_, ?_, ?_,
    ?_, ?_, rfl, rfl, ?_⟩
  · show (cr2_after_init d).testBit d.ADON.val = true
    rw [testBit_cr2_after_init d hr hc]
    simp
  · show (cr2_after_init d).testBit d.RSTCAL.val = false
    have hne : d.RSTCAL.val ≠ d.ADON.val := fun h => hr (Fin.ext h.symm)
    rw [testBit_cr2_after_init d hr hc]
    simp [hne]
  · show (cr2_after_init d).testBit d.CAL.val = false
    have hne : d.CAL.val ≠ d.ADON.val := fun h => hc (Fin.ext h.symm)
    rw [testBit_cr2_after_init d hr hc]
    simp [hne]
  · intro j ha hrs hca
    show (cr2_after_init d).testBit j = _
    rw [testBit_cr2_after_init d hr hc]
    simp [ha, hrs, hca]
  · intro hlt hnr hnc
    show cr2_after_init d = _
    apply Nat.eq_of_testBit_eq
    intro j
    rw [testBit_cr2_after_init d hr hc, Nat.testBit_or _ _ j, testBit_one_shiftLeft, testBit_u32]
    by_cases ha : j = d.ADON.val
    · simp [ha]
    · by_cases hrs : j = d.RSTCAL.val
      · subst hrs
        simp [ha, hnr, Ne.symm ha]
      · by_cases hca : j = d.CAL.val
        · subst hca
          simp [ha, hnc, Ne.symm ha]
        · by_cases h32 : j < 32
          · simp [ha, hrs, hca, h32, Ne.symm ha]
          · have hfalse : (d.CR2_EXTSEL_SWSTART ||| d.CR2_EXTTRIG).testBit j = false :=
              Nat.testBit_lt_two_pow
                (lt_of_lt_of_le hlt (Nat.pow_le_pow_right (by decide) (by omega)))
            simp [ha, hrs, hca, h32, Ne.symm ha, hfalse]
  · show u32 (adc_smpr_vals r).1 = (adc_smpr_vals r).1
    exact Nat.mod_eq_of_lt (adc_smpr_vals_lt r).1
  · show u32 (adc_smpr_vals r).2 = (adc_smpr_vals r).2
    exact Nat.mod_eq_of_lt (adc_smpr_vals_lt r).2
  · intro hr7
    exact smpr_fields_of_le r hr7

/-- The final state on the STM32 layout with a hardware that clears RSTCAL
after two polls and CAL after one, rate 7, at most five polls per loop. -/
theorem adc_init_final_state_witness :
    (sim_hw (some 2) (some 1)).rstcal_delay = some 2 ∧
    (sim_hw (some 2) (some 1)).cal_delay = some 1 ∧
    2 < 5 ∧ 1 < 5 ∧ stm32_defs.ADON ≠ stm32_defs.RSTCAL ∧ stm32_defs.ADON ≠ stm32_defs.CAL ∧
    ∃ m1, adc_init stm32_defs (sim_hw (some 2) (some 1)) 5 7 zero_machine = .returned m1 ∧
      m1.regs.ADC_CR1 = 0 ∧ m1.regs.ADC_SQR1 = 0 ∧ m1.regs.ADC_CR2 = 0x1E0001 ∧
      m1.regs.ADC_SMPR1 = 0x00FFFFFF ∧ m1.regs.ADC_SMPR2 = 0x3FFFFFFF :=
  ⟨rfl, rfl, by decide, by decide, by decide, by decide,
    match adc_init_final_state stm32_defs (sim_hw (some 2) (some 1)) 5 7 2 1 zero_machine
      rfl rfl (by decide) (by decide) (by decide) (by decide) with
    | ⟨m1, hret, hcr1, hsqr1, _, _, _, _, hval, hs1, hs2, _⟩ =>
      ⟨m1, hret, hcr1, hsqr1,
        (hval (by decide) (by decide) (by decide)).trans (by decide),
        hs1.trans (by decide), hs2.trans (by decide)⟩⟩

/-- C8: for every sample rate, if the simulated hardware never clears the
calibrate flag, or never clears the reset-calibration flag, `adc_init` does
not return: whatever number `fuel` of polls a busy-wait is allowed, the run
is still inside a busy-wait after `fuel` polls that all read 1, the polled
flag is still set, and the outcome is not `returned`. -/
theorem adc_init_never_returns (d : AdcDefs) (hw : Hw) (r : Nat) (m : Machine)
    (h : hw.cal_delay = none ∨ hw.rstcal_delay = none) :
    ∀ fuel,
      (∀ m1, adc_init d hw fuel r m ≠ .returned m1) ∧
      ∃ b m1, adc_init d hw fuel r m = .spinning m1 ∧
        (b = Cr2Bit.RSTCAL ∨ b = Cr2Bit.CAL) ∧
        m1.regs.ADC_CR2.testBit (d.pos b) = true ∧
        ∃ pre, m1.trace = pre ++ List.replicate fuel (Event.read_bit b true) := by
  intro fuel
  have hset1 : (adc_init_setup d hw r m).regs.ADC_CR2.testBit (d.pos .RSTCAL) = true := by
    rw [adc_init_setup_regs]
    exact testBit_bit_set_self _ _ (pos_lt d .RSTCAL)
  have key : ∃ b m1, adc_init d hw fuel r m = .spinning m1 ∧
      (b = Cr2Bit.RSTCAL ∨ b = Cr2Bit.CAL) ∧
      m1.regs.ADC_CR2.testBit (d.pos b) = true ∧
      ∃ pre, m1.trace = pre ++ List.replicate fuel (Event.read_bit b true) := by
    by_cases hspin : ∀ n, hw.rstcal_delay = some n → fuel ≤ n
    · rw [adc_init_eq, wait_clear_spin d .RSTCAL fuel _ _ hspin hset1]
      exact ⟨.RSTCAL, _, rfl, Or.inl rfl, hset1, _, rfl⟩
    · obtain ⟨n1, hn1, hlt⟩ : ∃ n, hw.rstcal_delay = some n ∧ n < fuel := by
        by_contra hcon
        exact hspin (fun n hn => Nat.le_of_not_lt (fun hlt => hcon ⟨n, hn, hlt⟩))
      have hcal : hw.cal_delay = none := by
        rcases h with h | h
        · exact h
        · rw [h] at hn1
          cases hn1
      have hset2 : ∀ m2 : Machine,
          (bit_write d .CAL 1 m2).regs.ADC_CR2.testBit (d.pos .CAL) = true :=
        fun m2 => testBit_bit_set_self _ _ (pos_lt d .CAL)
      rw [adc_init_eq, hn1, wait_clear_some d .RSTCAL n1 fuel _ hlt hset1]
      simp only
      rw [hcal, wait_clear_spin d .CAL fuel none _ (fun n hn => by cases hn) (hset2 _)]
      exact ⟨.CAL, _, rfl, Or.inr rfl, hset2 _, _, rfl⟩
  refine ⟨?_, key⟩
  obtain ⟨_, m1, hm1, _⟩ := key
  intro m2 hm2
  rw [hm1] at hm2
  cases hm2

/-- The STM32 layout and a hardware that clears RSTCAL at once but never
clears CAL: no poll bound lets the call return. -/
theorem adc_init_never_returns_witness :
    ((sim_hw (some 0) none).cal_delay = none ∨ (sim_hw (some 0) none).rstcal_delay = none) ∧
    ∀ fuel,
      (∀ m1, adc_init stm32_defs (sim_hw (some 0) none) fuel 3 zero_machine ≠ .returned m1) ∧
      ∃ b m1, adc_init stm32_defs (sim_hw (some 0) none) fuel 3 zero_machine = .spinning m1 ∧
        (b = Cr2Bit.RSTCAL ∨ b = Cr2Bit.CAL) ∧
        m1.regs.ADC_CR2.testBit (stm32_defs.pos b) = true ∧
        ∃ pre, m1.trace = pre ++ List.replicate fuel (Event.read_bit b true) :=
  ⟨Or.inl rfl, adc_init_never_returns stm32_defs (sim_hw (some 0) none) 3 zero_machine (Or.inl rfl)⟩

/-- C9: for every rate FAST, every valid rate SLOW (at most 7) and a hardware
that clears both calibration flags immediately, `adc_init FAST` returns, and
after `adc_set_sample_rate SLOW` and `adc_disable` the ADON flag is clear and
`ADC_SMPR1`, `ADC_SMPR2` hold the packing of SLOW, every channel field being
SLOW; the final registers are the same for every other FAST. -/
theorem init_set_rate_disable (d : AdcDefs) (hw : Hw) (fuel fast slow : Nat) (m : Machine)
    (hslow : slow ≤ 7)
    (h1 : hw.rstcal_delay = some 0) (h2 : hw.cal_delay = some 0) (hfuel : 0 < fuel) :
    ∃ m1, adc_init d hw fuel fast m = .returned m1 ∧
      (adc_disable d (adc_set_sample_rate slow m1)).regs.ADC_CR2.testBit d.ADON.val = false ∧
      (adc_disable d (adc_set_sample_rate slow m1)).regs.ADC_SMPR1 = (adc_smpr_vals slow).1 ∧
      (adc_disable d (adc_set_sample_rate slow m1)).regs.ADC_SMPR2 = (adc_smpr_vals slow).2 ∧
      (∀ i, i < 10 →
        field (adc_disable d (adc_set_sample_rate slow m1)).regs.ADC_SMPR2 i = slow) ∧
      (∀ i, i < 8 →
        field (adc_disable d (adc_set_sample_rate slow m1)).regs.ADC_SMPR1 i = slow) ∧
      (∀ fast1, ∃ m2, adc_init d hw fuel fast1 m = .returned m2 ∧
        (adc_disable d (adc_set_sample_rate slow m2)).regs =
          (adc_disable d (adc_set_sample_rate slow m1)).regs) := by
  refine ⟨_, adc_init_returned d hw fuel fast 0 0 m h1 h2 hfuel hfuel, ?_, ?_, ?_, ?_, ?_, ?_⟩
  · exact (adc_disable_clears d _)
  · show u32 (adc_smpr_vals slow).1 = (adc_smpr_vals slow).1
    exact Nat.mod_eq_of_lt (adc_smpr_vals_lt slow).1
  · show u32 (adc_smpr_vals slow).2 = (adc_smpr_vals slow).2
    exact Nat.mod_eq_of_lt (adc_smpr_vals_lt slow).2
  · exact (smpr_fields_of_le slow hslow).1
  · exact (smpr_fields_of_le slow hslow).2
  · intro fast1
    exact ⟨_, adc_init_returned d hw fuel fast1 0 0 m h1 h2 hfuel hfuel, rfl⟩

/-- The scenario on the STM32 layout with FAST = 0, SLOW = 7, flags cleared
immediately, one poll allowed per loop. -/
theorem init_set_rate_disable_witness :
    (7 ≤ 7) ∧ (sim_hw (some 0) (some 0)).rstcal_delay = some 0 ∧
    (sim_hw (some 0) (some 0)).cal_delay = some 0 ∧ 0 < 1 ∧
    ∃ m1, adc_init stm32_defs (sim_hw (some 0) (some 0)) 1 0 zero_machine = .returned m1 ∧
      (adc_disable stm32_defs (adc_set_sample_rate 7 m1)).regs.ADC_CR2.testBit 0 = false ∧
      (adc_disable stm32_defs (adc_set_sample_rate 7 m1)).regs.ADC_SMPR1 = 0x00FFFFFF ∧
      (adc_disable stm32_defs (adc_set_sample_rate 7 m1)).regs.ADC_SMPR2 = 0x3FFFFFFF :=
  ⟨by decide, rfl, rfl, by decide,
    match init_set_rate_disable stm32_defs (sim_hw (some 0) (some 0)) 1 0 7 zero_machine
      (by decide) rfl rfl (by decide) with
    | ⟨m1, hret, hadon, hs1, hs2, _⟩ =>
      ⟨m1, hret, hadon, hs1.trans (by decide), hs2.trans (by decide)⟩⟩

/-- C7: in the ordered trace of the operations of `adc_init`, for every sample
rate, hardware and poll bound, returned or not: the first three operations
are set-prescaler, clock-enable and peripheral-reset, in that order, and all
later operations are ADC register accesses, so the three precede the first
ADC access; every store setting the calibrate flag comes after the store
setting the reset-calibration flag and after a poll that read the
reset-calibration flag as 0; and when the call returns, both stores have
occurred and the last operation is a poll that read the calibrate flag as
0. -/
theorem adc_init_sequencing (d : AdcDefs) (hw : Hw) (fuel r : Nat) (m : Machine) :
    ∃ evs rest,
      (adc_init d hw fuel r m).machine.trace = m.trace ++ evs ∧
      evs = Event.rcc_set_prescaler d.RCC_PRESCALER_ADC d.RCC_ADCPRE_PCLK_DIV_6 ::
        Event.rcc_clk_enable d.RCC_ADC1 :: Event.rcc_reset_dev d.RCC_ADC1 :: rest ∧
      (∀ e, e ∈ rest → e.isAdcAccess = true ∧ e.isClockOp = false) ∧
      OnlyAfter (Event.write_bit .RSTCAL 1) (Event.write_bit .CAL 1) evs ∧
      OnlyAfter (Event.read_bit .RSTCAL false) (Event.write_bit .CAL 1) evs ∧
      (∀ m1, adc_init d hw fuel r m = .returned m1 →
        Event.write_bit .RSTCAL 1 ∈ evs ∧ Event.write_bit .CAL 1 ∈ evs ∧
        ∃ pre, evs = pre ++ [Event.read_bit .CAL false]) := by
  obtain ⟨n1, h | ⟨n2, last, htr, hlast, hret⟩⟩ := adc_init_trace d hw fuel r m
  · obtain ⟨htr, hnot⟩ := h
    refine ⟨_, _, htr, by simp [setup_events]; rfl, ?_, ?_, ?_, ?_⟩
    · intro e he
      simp only [List.mem_append, List.mem_cons, List.mem_replicate, List.mem_singleton,
        List.not_mem_nil, or_false] at he
      casesm* _ ∨ _, _ ∧ _
      all_goals (subst_vars; exact ⟨rfl, rfl⟩)
    · apply onlyAfter_of_not_mem
      simp [setup_events, List.mem_replicate]
    · apply onlyAfter_of_not_mem
      simp [setup_events, List.mem_replicate]
    · intro m1 hm1
      exact absurd hm1 (hnot m1)
  · refine ⟨_, _, htr, by simp [setup_events]; rfl, ?_, ?_, ?_, ?_⟩
    · intro e he
      rcases hlast with hl | hl <;> subst hl <;>
        simp only [List.mem_append, List.mem_cons, List.mem_replicate, List.mem_singleton,
          List.not_mem_nil, or_false, List.append_nil] at he
      all_goals
        casesm* _ ∨ _, _ ∧ _
        all_goals (subst_vars; exact ⟨rfl, rfl⟩)
    · apply onlyAfter_of_split
      · simp [setup_events]
      · simp [setup_events, List.mem_replicate]
    · apply onlyAfter_of_split
      · simp [setup_events]
      · simp [setup_events, List.mem_replicate]
    · intro m1 hm1
      have hl := hret m1 hm1
      subst hl
      refine ⟨by simp [setup_events], by simp [setup_events], ?_⟩
      exact ⟨(setup_events d r ++ (List.replicate n1 (Event.read_bit .RSTCAL true) ++
        [Event.read_bit .RSTCAL false])) ++ (Event.write_bit .CAL 1 ::
          List.replicate n2 (Event.read_bit .CAL true)), by simp⟩

end Adc
